import Mathlib

/-!
Verification of the three-way merge editor core
(`crates/git_ui/src/three_way_merge_editor.rs`).

Shallow embedding conventions:

* A text buffer is represented by its list of lines (`List String`), where the
  buffer's string content is the lines joined by `"\n"`.  A buffer always has at
  least one row; the empty buffer is `[""]`.  Row numbers are `Nat` (the source
  uses `u32`; all row arithmetic in the source is small and non-negative).
* `Hunk.text` is represented by its list of lines.  In the source it is the
  lines joined by `"\n"`; joining is injective on newline-free lines, so the
  list representation is faithful.  `apply_hunk_to_base` re-joins this text and
  splices it at byte offsets; `insert_lines_of_text` below reproduces the
  line-level effect of that splice (a joined text ending in `"\n"`, i.e. whose
  last line is empty, merges with the following line start and so contributes
  one line fewer).
* Signed line-count deltas are `Int` (source: `i32`).
* The line differ itself is the external `similar` crate, which is not part of
  this repository's sources; it is modelled from the spec (see `textDiffOps`).
  Everything downstream of the raw diff operations is translated directly from
  the source.
* UI state (editors, highlights, padding blocks, scroll sync) is outside the
  embedding; `update_alignment_and_highlighting` is modelled by its effect on
  the tracked hunk lists, which is all the claims refer to.
-/

/-- Status of a hunk in the merge process (source lines 112-120). -/
inductive HunkStatus where
  | Pending
  | Accepted
  | Ignored
deriving DecidableEq, Repr

/-- Type of change in a diff hunk (source lines 122-131). -/
inductive DiffChangeKind where
  | Added
  | Deleted
  | Modified
deriving DecidableEq, Repr

/-- Which side a hunk is from (source lines 150-154). -/
inductive MergeSide where
  | Theirs
  | Ours
deriving DecidableEq, Repr

/-- A half-open row range `[start, stop)`; embeds `std::ops::Range<u32>`.
`stop` stands for the Rust field `end`, which is a Lean keyword. -/
structure RowRange where
  start : Nat
  stop : Nat
deriving DecidableEq, Repr

/-- Information about a diff hunk for merge (source lines 133-148). -/
structure MergeHunk where
  side : MergeSide
  kind : DiffChangeKind
  source_rows : RowRange
  base_rows : RowRange
  text : List String
  status : HunkStatus
deriving DecidableEq, Repr

/-- A raw diff operation, mirroring `similar::DiffOp` (the four variants used
by `compute_diff_hunks`). -/
inductive DiffOp where
  | equal (old_index new_index len : Nat)
  | delete (old_index old_len new_index : Nat)
  | insert (old_index new_index new_len : Nat)
  | replace (old_index old_len new_index new_len : Nat)
deriving DecidableEq, Repr

/-- A per-line diff operation: one line kept (present in both sequences),
one line deleted from the old side, or one line inserted from the new side. -/
inductive LineOp where
  | keep
  | del
  | ins
deriving DecidableEq, Repr

/-- Fuelled length of a longest common subsequence of two line sequences; any
fuel at least the sum of the lengths gives the true value, and the fuel keeps
the recursion structural. -/
def lcsLenF : Nat → List String → List String → Nat
  | 0, _, _ => 0
  | _ + 1, [], _ => 0
  | _ + 1, _ :: _, [] => 0
  | fuel + 1, a :: as, b :: bs =>
      if a = b then lcsLenF fuel as bs + 1
      else max (lcsLenF fuel as (b :: bs)) (lcsLenF fuel (a :: as) bs)

/-- Length of a longest common subsequence of two line sequences. -/
def lcsLen (l1 l2 : List String) : Nat := lcsLenF (l1.length + l2.length) l1 l2

/-- Fuelled LCS-based per-line diff: keep equal heads; otherwise drop the
head whose removal preserves the longer common subsequence. -/
def diffLinesF : Nat → List String → List String → List LineOp
  | 0, _, _ => []
  | _ + 1, [], [] => []
  | fuel + 1, _ :: as, [] => .del :: diffLinesF fuel as []
  | fuel + 1, [], _ :: bs => .ins :: diffLinesF fuel [] bs
  | fuel + 1, a :: as, b :: bs =>
      if a = b then .keep :: diffLinesF fuel as bs
      else if lcsLen (a :: as) bs ≤ lcsLen as (b :: bs) then
        .del :: diffLinesF fuel as (b :: bs)
      else
        .ins :: diffLinesF fuel (a :: as) bs

/-- The per-line LCS diff of two line sequences. -/
def diffLines (old new : List String) : List LineOp :=
  diffLinesF (old.length + new.length) old new

/-- The run of line operations being accumulated by the grouping pass: either
a change run (`d` deletions and `i` insertions, possibly interleaved) or a
run of `k` equal lines. -/
inductive PendingRun where
  | change (d i : Nat)
  | equal (k : Nat)
deriving DecidableEq, Repr

/-- Emit a pending change run starting at old index `oi` and new index `ni`
as one grouped operation: nothing for an empty run, Insert for a pure
insertion run, Delete for a pure deletion run, Replace for a mixed run. -/
def emitChange (oi ni d i : Nat) : List DiffOp :=
  if d = 0 ∧ i = 0 then []
  else if d = 0 then [.insert oi ni i]
  else if i = 0 then [.delete oi d ni]
  else [.replace oi d ni i]

/-- Flush the final pending run at the end of the stream. -/
def flushPending (oi ni : Nat) : PendingRun → List DiffOp
  | .change d i => emitChange oi ni d i
  | .equal k => [.equal oi ni k]

/-- Group a per-line operation stream into maximal runs, emitting one grouped
operation per run; `oi` and `ni` are the old and new indices at the start of
the pending run. -/
def groupOps : Nat → Nat → PendingRun → List LineOp → List DiffOp
  | oi, ni, pend, [] => flushPending oi ni pend
  | oi, ni, .change d i, .keep :: rest =>
      emitChange oi ni d i ++ groupOps (oi + d) (ni + i) (.equal 1) rest
  | oi, ni, .change d i, .del :: rest => groupOps oi ni (.change (d + 1) i) rest
  | oi, ni, .change d i, .ins :: rest => groupOps oi ni (.change d (i + 1)) rest
  | oi, ni, .equal k, .keep :: rest => groupOps oi ni (.equal (k + 1)) rest
  | oi, ni, .equal k, .del :: rest =>
      .equal oi ni k :: groupOps (oi + k) (ni + k) (.change 1 0) rest
  | oi, ni, .equal k, .ins :: rest =>
      .equal oi ni k :: groupOps (oi + k) (ni + k) (.change 0 1) rest

/-- Modelled from the spec: the `LineDiffer` of spec section 4.1.  The
implementation in the source is the external `similar` crate
(`TextDiff::from_lines`), whose code is not part of this repository, so the
differ is modelled here: an LCS-based per-line diff (`diffLines`) grouped
into an ordered sequence of Equal / Delete / Insert / Replace operations
over index ranges (`groupOps`), one operation per maximal run, as
`similar`'s `ops()` presents them.  Replaying the sequence transforms `old`
into `new` (theorem `textDiffOps_script`); the diff is deterministic;
identical inputs yield a single Equal operation spanning everything; an
empty `old` yields a single Insert and an empty `new` a single Delete. -/
def textDiffOps (old new : List String) : List DiffOp :=
  groupOps 0 0 (.change 0 0) (diffLines old new)

/-- Classification of one raw diff operation, the match arms of
`compute_diff_hunks` (source lines 986-1051).  `none` for Equal operations;
the text of a hunk is the slice of the target's lines covered by the
operation's new range (`target_text.lines().skip(..).take(..)` in the
source). -/
def classifyOp (target : List String) (side : MergeSide) : DiffOp → Option MergeHunk
  | .equal _ _ _ => none
  | .delete old_index old_len new_index =>
      some { side := side
             kind := .Deleted
             source_rows := ⟨new_index, new_index⟩
             base_rows := ⟨old_index, old_index + old_len⟩
             text := []
             status := .Pending }
  | .insert old_index new_index new_len =>
      some { side := side
             kind := .Added
             source_rows := ⟨new_index, new_index + new_len⟩
             base_rows := ⟨old_index, old_index⟩
             text := (target.drop new_index).take new_len
             status := .Pending }
  | .replace old_index old_len new_index new_len =>
      some { side := side
             kind := .Modified
             source_rows := ⟨new_index, new_index + new_len⟩
             base_rows := ⟨old_index, old_index + old_len⟩
             text := (target.drop new_index).take new_len
             status := .Pending }

/-- Compute diff hunks between base and target text (source lines 978-1054). -/
def compute_diff_hunks (base_text target_text : List String) (side : MergeSide) :
    List MergeHunk :=
  (textDiffOps base_text target_text).filterMap (classifyOp target_text side)

/-- The lines contributed by splicing a hunk's joined text followed by a
newline into a buffer at a row start.  A joined text whose last line is empty
ends in `"\n"`; the source then splices it without appending another newline,
so the final empty line merges into the following buffer line and is lost. -/
def insert_lines_of_text (text : List String) : List String :=
  match text.getLast? with
  | some "" => if 2 ≤ text.length then text.dropLast else text
  | some _ => text
  | none => [""]

/-- Apply a hunk's content to the base buffer (source lines 1181-1234), at the
line level.  `max_row` is `snapshot.max_point().row`.  For `Modified`, when the
clamped end row is past the last row the source replaces up to the end of the
buffer with the raw text; otherwise it replaces the whole lines
`[start_row, end_row)` with the text plus a trailing newline.  `Deleted` is a
no-op (the source only marks it accepted). -/
def apply_hunk_to_base (lines : List String) (hunk : MergeHunk) : List String :=
  let max_row := lines.length - 1
  match hunk.kind with
  | .Added =>
      let insert_row := min hunk.base_rows.start max_row
      lines.take insert_row ++ insert_lines_of_text hunk.text ++ lines.drop insert_row
  | .Deleted => lines
  | .Modified =>
      let start_row := min hunk.base_rows.start max_row
      let end_row := min hunk.base_rows.stop (max_row + 1)
      if max_row < end_row then
        lines.take start_row ++ hunk.text
      else
        lines.take start_row ++ insert_lines_of_text hunk.text ++ lines.drop end_row

/-- Apply every hunk of a list to a copy of the base, in source order. -/
def apply_hunks (lines : List String) (hunks : List MergeHunk) : List String :=
  hunks.foldl apply_hunk_to_base lines

/-- Compute the theirs row corresponding to a base row (source lines 768-778):
sum the deltas of the leading entries whose position is at or before the
queried row (the loop breaks at the first later entry), add, clamp at zero. -/
def offsetUpTo (base_row : Nat) : List (Nat × Int) → Int
  | [] => 0
  | (change_pos, delta) :: rest =>
      if change_pos ≤ base_row then delta + offsetUpTo base_row rest else 0

/-- Source lines 768-778. -/
def base_to_theirs (base_row : Nat) (theirs_changes : List (Nat × Int)) : Nat :=
  (max ((base_row : Int) + offsetUpTo base_row theirs_changes) 0).toNat

/-- Source lines 780-790 (textually identical to `base_to_theirs`). -/
def base_to_ours (base_row : Nat) (ours_changes : List (Nat × Int)) : Nat :=
  (max ((base_row : Int) + offsetUpTo base_row ours_changes) 0).toNat

/-- Stable insertion into a list sorted by `le`: the element goes after every
leading element that compares at-or-before it. -/
def insertSorted (le : α → α → Bool) (x : α) : List α → List α
  | [] => [x]
  | y :: ys => if le y x then y :: insertSorted le x ys else x :: y :: ys

/-- Stable sort by `le`; embeds Rust's stable `sort_by` / `sort_by_key`. -/
def sortByLe (le : α → α → Bool) (l : List α) : List α :=
  l.foldl (fun acc x => insertSorted le x acc) []

/-- The (base_row, delta) entry a pending hunk contributes to the
coordinate-offset lists (source lines 742-765): position is the hunk's base
start, delta is source line count minus base line count as signed integers. -/
def change_entry (h : MergeHunk) : Nat × Int :=
  (h.base_rows.start,
    ((h.source_rows.stop - h.source_rows.start : Nat) : Int)
      - ((h.base_rows.stop - h.base_rows.start : Nat) : Int))

/-- Comparator for `sort_by_key(|(pos, _)| *pos)`. -/
def changeLe (a b : Nat × Int) : Bool := decide (a.1 ≤ b.1)

/-- The sorted change-offset list built from one side's hunks (source lines
742-752 for theirs, 755-765 for ours; the two loops are identical): one entry
per Pending hunk, non-Pending hunks are skipped, sorted by base position. -/
def pending_changes (hunks : List MergeHunk) : List (Nat × Int) :=
  sortByLe changeLe
    (hunks.filterMap fun h =>
      if h.status = .Pending then some (change_entry h) else none)

/-- A change event collected from one pending hunk (source lines 659-664). -/
structure ChangeEvent where
  base_range : RowRange
  theirs_range : Option RowRange
  ours_range : Option RowRange
deriving DecidableEq, Repr

/-- A unified conflict region (source lines 698-704). -/
structure MergedRegion where
  base_start : Nat
  base_end : Nat
  theirs_ranges : List RowRange
  ours_ranges : List RowRange
deriving DecidableEq, Repr

/-- Collect all change events from both sides (source lines 667-689):
non-Pending hunks are skipped on both sides; theirs events first, then ours. -/
def change_events (theirs_hunks ours_hunks : List MergeHunk) : List ChangeEvent :=
  (theirs_hunks.filterMap fun h =>
    if h.status = .Pending then
      some { base_range := h.base_rows, theirs_range := some h.source_rows, ours_range := none }
    else none)
    ++ (ours_hunks.filterMap fun h =>
      if h.status = .Pending then
        some { base_range := h.base_rows, theirs_range := none, ours_range := some h.source_rows }
      else none)

/-- Comparator for the event sort (source lines 692-695): by base start, then
by base end, ascending. -/
def eventLe (a b : ChangeEvent) : Bool :=
  decide (a.base_range.start < b.base_range.start
    ∨ (a.base_range.start = b.base_range.start ∧ a.base_range.stop ≤ b.base_range.stop))

/-- The region opened by a single event (source lines 725-731). -/
def region_of_event (e : ChangeEvent) : MergedRegion :=
  { base_start := e.base_range.start
    base_end := e.base_range.stop
    theirs_ranges := e.theirs_range.toList
    ours_ranges := e.ours_range.toList }

/-- Merging one event into the current region (source lines 716-723): the end
is extended to the maximum and the event's side-tagged source range appended. -/
def merge_event_into (last : MergedRegion) (e : ChangeEvent) : MergedRegion :=
  { last with
    base_end := max last.base_end e.base_range.stop
    theirs_ranges := last.theirs_ranges ++ e.theirs_range.toList
    ours_ranges := last.ours_ranges ++ e.ours_range.toList }

/-- One iteration of the region-merging loop (source lines 708-732): merge
into the last region when the event's base start is at or before its end,
otherwise push a fresh region. -/
def merge_step (acc : List MergedRegion) (e : ChangeEvent) : List MergedRegion :=
  match acc.getLast? with
  | some last =>
      if e.base_range.start ≤ last.base_end then
        acc.dropLast ++ [merge_event_into last e]
      else
        acc ++ [region_of_event e]
  | none => acc ++ [region_of_event e]

/-- The merged conflict regions of two hunk lists (source lines 659-732). -/
def merged_regions_of (theirs_hunks ours_hunks : List MergeHunk) : List MergedRegion :=
  (sortByLe eventLe (change_events theirs_hunks ours_hunks)).foldl merge_step []

/-- Written from the claim's wording (spec section 4.3): one event per Pending
hunk, built by filtering each side to its pending hunks and tagging the side. -/
def spec_change_events (theirs_hunks ours_hunks : List MergeHunk) : List ChangeEvent :=
  ((theirs_hunks.filter fun h => h.status == .Pending).map fun h =>
    { base_range := h.base_rows, theirs_range := some h.source_rows, ours_range := none })
    ++ ((ours_hunks.filter fun h => h.status == .Pending).map fun h =>
      { base_range := h.base_rows, theirs_range := none, ours_range := some h.source_rows })

/-- Written from the claim's wording: scan the sorted events left to right,
merging an event into the current region exactly when its base start is less
than or equal to the current region's base end, and starting a new region when
it is strictly greater. -/
def spec_scan_regions (cur : MergedRegion) : List ChangeEvent → List MergedRegion
  | [] => [cur]
  | e :: es =>
      if e.base_range.start ≤ cur.base_end then
        spec_scan_regions (merge_event_into cur e) es
      else
        cur :: spec_scan_regions (region_of_event e) es

/-- Written from the claim's wording (spec section 4.3): sort the events by
(base start, base end) ascending and scan. -/
def spec_merged_regions (theirs_hunks ours_hunks : List MergeHunk) : List MergedRegion :=
  match sortByLe eventLe (spec_change_events theirs_hunks ours_hunks) with
  | [] => []
  | e :: es => spec_scan_regions (region_of_event e) es

/-- Base line count of a region (source line 797). -/
def region_base_lines (r : MergedRegion) : Nat := r.base_end - r.base_start

/-- Theirs line count of a region (source lines 799-808): if theirs has no
tracked change the region mirrors the base, otherwise the sum of the tracked
theirs range lengths. -/
def region_theirs_lines (r : MergedRegion) : Nat :=
  if r.theirs_ranges.isEmpty then region_base_lines r
  else (r.theirs_ranges.map fun rr => rr.stop - rr.start).sum

/-- Ours line count of a region (source lines 810-817). -/
def region_ours_lines (r : MergedRegion) : Nat :=
  if r.ours_ranges.isEmpty then region_base_lines r
  else (r.ours_ranges.map fun rr => rr.stop - rr.start).sum

/-- Maximum of the three per-space line counts (source line 819). -/
def region_max_lines (r : MergedRegion) : Nat :=
  max (max (region_theirs_lines r) (region_ours_lines r)) (region_base_lines r)

/-- Insertion row for theirs padding (source lines 829-834): the end of the
last tracked theirs range, or the base end mapped into theirs coordinates. -/
def theirs_insert_row (r : MergedRegion) (theirs_changes : List (Nat × Int)) : Nat :=
  match r.theirs_ranges.getLast? with
  | some rr => rr.stop
  | none => base_to_theirs r.base_end theirs_changes

/-- Insertion row for ours padding (source lines 849-854). -/
def ours_insert_row (r : MergedRegion) (ours_changes : List (Nat × Int)) : Nat :=
  match r.ours_ranges.getLast? with
  | some rr => rr.stop
  | none => base_to_ours r.base_end ours_changes

/-- The padding instructions one region contributes (the loop body, source
lines 796-857): `(theirs, base, ours)` instructions, each `none` when that
space needs no padding; a base instruction also carries the majority color
flag `theirs_lines >= ours_lines`.  A degenerate region (max of zero) emits
nothing. -/
def plan_region (r : MergedRegion) (theirs_changes ours_changes : List (Nat × Int)) :
    Option (Nat × Nat) × Option (Nat × Nat × Bool) × Option (Nat × Nat) :=
  let base_lines := region_base_lines r
  let theirs_lines := region_theirs_lines r
  let ours_lines := region_ours_lines r
  let max_lines := region_max_lines r
  if max_lines = 0 then (none, none, none)
  else
    (if theirs_lines < max_lines then
        some (theirs_insert_row r theirs_changes, max_lines - theirs_lines)
      else none,
      if base_lines < max_lines then
        some (r.base_end, max_lines - base_lines, decide (theirs_lines ≥ ours_lines))
      else none,
      if ours_lines < max_lines then
        some (ours_insert_row r ours_changes, max_lines - ours_lines)
      else none)

/-- The full padding pass over all merged regions (source lines 792-857),
accumulating the three per-space instruction lists. -/
def plan_paddings (regions : List MergedRegion)
    (theirs_changes ours_changes : List (Nat × Int)) :
    List (Nat × Nat) × List (Nat × Nat × Bool) × List (Nat × Nat) :=
  regions.foldl
    (fun acc r =>
      let plan := plan_region r theirs_changes ours_changes
      (acc.1 ++ plan.1.toList, acc.2.1 ++ plan.2.1.toList, acc.2.2 ++ plan.2.2.toList))
    ([], [], [])

/-- The merge-relevant state of a `ThreeWayMergeEditor`: the three buffers'
lines and the two tracked hunk lists (source lines 166-211; editors,
highlights, blocks and other UI state are outside the embedding). -/
structure MergeState where
  theirsLines : List String
  baseLines : List String
  oursLines : List String
  theirsHunks : List MergeHunk
  oursHunks : List MergeHunk
deriving DecidableEq, Repr

/-- Recompute hunks from the current buffer texts (source lines 632-647): both
hunk lists are rebuilt wholesale by diffing base against theirs and base
against ours.  The highlighting and padding-block side effects of
`update_alignment_and_highlighting` are UI-only and outside the embedding. -/
def update_alignment_and_highlighting (s : MergeState) : MergeState :=
  { s with
    theirsHunks := compute_diff_hunks s.baseLines s.theirsLines .Theirs
    oursHunks := compute_diff_hunks s.baseLines s.oursLines .Ours }

/-- Set the status of the hunk at an index, leaving the list unchanged when
the index is out of range (`if let Some(h) = hunks.get_mut(i)`). -/
def set_status_at (hunks : List MergeHunk) (i : Nat) (st : HunkStatus) : List MergeHunk :=
  match hunks[i]? with
  | some h => hunks.set i { h with status := st }
  | none => hunks

/-- Accept a hunk from theirs side into base (source lines 1141-1159): only a
Pending hunk is applied; it is applied to the base buffer, marked Accepted,
and then everything is recomputed.  A missing or non-Pending hunk means an
early return with no effect at all. -/
def accept_theirs_hunk (s : MergeState) (hunk_index : Nat) : MergeState :=
  match s.theirsHunks[hunk_index]? with
  | some h =>
      if h.status = .Pending then
        update_alignment_and_highlighting
          (let s1 := { s with baseLines := apply_hunk_to_base s.baseLines h }
           { s1 with theirsHunks := set_status_at s1.theirsHunks hunk_index .Accepted })
      else s
  | none => s

/-- Accept a hunk from ours side into base (source lines 1161-1179). -/
def accept_ours_hunk (s : MergeState) (hunk_index : Nat) : MergeState :=
  match s.oursHunks[hunk_index]? with
  | some h =>
      if h.status = .Pending then
        update_alignment_and_highlighting
          (let s1 := { s with baseLines := apply_hunk_to_base s.baseLines h }
           { s1 with oursHunks := set_status_at s1.oursHunks hunk_index .Accepted })
      else s
  | none => s

/-- The status write performed by `ignore_theirs_hunk` (source lines
1237-1243): the status is set to Ignored with no check of the current
status. -/
def ignore_mark_theirs (s : MergeState) (hunk_index : Nat) : MergeState :=
  { s with theirsHunks := set_status_at s.theirsHunks hunk_index .Ignored }

/-- The status write performed by `ignore_ours_hunk` (source lines 1245-1252). -/
def ignore_mark_ours (s : MergeState) (hunk_index : Nat) : MergeState :=
  { s with oursHunks := set_status_at s.oursHunks hunk_index .Ignored }

/-- Ignore a hunk from theirs side (source lines 1236-1243): mark it Ignored
(unconditionally) and recompute; an out-of-range index does nothing. -/
def ignore_theirs_hunk (s : MergeState) (hunk_index : Nat) : MergeState :=
  match s.theirsHunks[hunk_index]? with
  | some _ => update_alignment_and_highlighting (ignore_mark_theirs s hunk_index)
  | none => s

/-- Ignore a hunk from ours side (source lines 1245-1252). -/
def ignore_ours_hunk (s : MergeState) (hunk_index : Nat) : MergeState :=
  match s.oursHunks[hunk_index]? with
  | some _ => update_alignment_and_highlighting (ignore_mark_ours s hunk_index)
  | none => s

/-- The marking loop of `accept_all_theirs` / `accept_all_ours` (source lines
1256-1260, 1267-1271): every Pending hunk's status becomes Accepted; other
hunks are untouched. -/
def mark_all_pending_accepted (hunks : List MergeHunk) : List MergeHunk :=
  hunks.map fun h => if h.status = .Pending then { h with status := .Accepted } else h

/-- Accept all pending hunks from theirs side (source lines 1254-1263): only
statuses are written, `apply_hunk_to_base` is never called, then everything is
recomputed. -/
def accept_all_theirs (s : MergeState) : MergeState :=
  update_alignment_and_highlighting
    { s with theirsHunks := mark_all_pending_accepted s.theirsHunks }

/-- Accept all pending hunks from ours side (source lines 1265-1274). -/
def accept_all_ours (s : MergeState) : MergeState :=
  update_alignment_and_highlighting
    { s with oursHunks := mark_all_pending_accepted s.oursHunks }

/-- Check whether all hunks have been processed (source lines 533-537). -/
def all_hunks_processed (s : MergeState) : Bool :=
  s.theirsHunks.all (fun h => h.status != .Pending)
    && s.oursHunks.all (fun h => h.status != .Pending)

/-! ## General helper lemmas -/

theorem filterMap_ite_eq_map_filter {α β : Type} (p : α → Prop) [DecidablePred p]
    (f : α → β) (l : List α) :
    (l.filterMap fun x => if p x then some (f x) else none)
      = (l.filter fun x => decide (p x)).map f := by
  induction l with
  | nil => rfl
  | cons a l ih =>
      by_cases hp : p a <;> simp [List.filterMap_cons, List.filter_cons, hp, ih]

/-! ## Claim C2: monotonicity of the coordinate mapping -/

/-- The change-offset list is sorted by base position. -/
def sorted_by_pos (cs : List (Nat × Int)) : Prop :=
  cs.Pairwise fun a b => a.1 ≤ b.1

instance (cs : List (Nat × Int)) : Decidable (sorted_by_pos cs) := by
  unfold sorted_by_pos; infer_instance

theorem offsetUpTo_nonneg (r : Nat) (cs : List (Nat × Int))
    (h : ∀ c ∈ cs, 0 ≤ c.2) : 0 ≤ offsetUpTo r cs := by
  induction cs with
  | nil => simp [offsetUpTo]
  | cons c rest ih =>
      obtain ⟨pos, d⟩ := c
      simp only [offsetUpTo]
      split
      · have hd : (0:Int) ≤ d := h (pos, d) (by simp)
        have := ih (fun c hc => h c (by simp [hc]))
        omega
      · omega

theorem offsetUpTo_mono (r1 r2 : Nat) (hr : r1 ≤ r2) (cs : List (Nat × Int))
    (h : ∀ c ∈ cs, 0 ≤ c.2) : offsetUpTo r1 cs ≤ offsetUpTo r2 cs := by
  induction cs with
  | nil => simp [offsetUpTo]
  | cons c rest ih =>
      obtain ⟨pos, d⟩ := c
      have hrest : ∀ c ∈ rest, 0 ≤ c.2 := fun c hc => h c (by simp [hc])
      simp only [offsetUpTo]
      by_cases h1 : pos ≤ r1
      · have h2 : pos ≤ r2 := le_trans h1 hr
        simp only [if_pos h1, if_pos h2]
        have := ih hrest
        omega
      · simp only [if_neg h1]
        split
        · have hd : (0:Int) ≤ d := h (pos, d) (by simp)
          have := offsetUpTo_nonneg r2 rest hrest
          omega
        · omega

/-- C2.  The claim asserts the mapping is monotone for every sorted
change-offset list; that fails for negative deltas (see the counterexample),
and holds once every delta is non-negative: for any two base rows `r1 < r2`,
both `base_to_theirs` and `base_to_ours` map `r1` at or below `r2`. -/
theorem base_map_monotone_nonneg (cs : List (Nat × Int)) (r1 r2 : Nat)
    (hsorted : sorted_by_pos cs) (hnn : ∀ c ∈ cs, 0 ≤ c.2) (hr : r1 < r2) :
    base_to_theirs r1 cs ≤ base_to_theirs r2 cs
      ∧ base_to_ours r1 cs ≤ base_to_ours r2 cs := by
  have hmono := offsetUpTo_mono r1 r2 (Nat.le_of_lt hr) cs hnn
  constructor <;>
  · simp only [base_to_theirs, base_to_ours]
    apply Int.toNat_le_toNat
    have h1 : (r1 : Int) ≤ (r2 : Int) := by exact_mod_cast Nat.le_of_lt hr
    omega

/-- C2 counterexample: for the sorted list `[(2, -100)]` (a large deletion
anchored at base row 2) the mapping of the source is not monotone: row 1 maps
to 1 but row 2 clamps to 0, for both `base_to_theirs` and `base_to_ours`. -/
theorem base_map_not_monotone :
    sorted_by_pos [((2:Nat), (-100:Int))] ∧ (1:Nat) < 2
      ∧ ¬ base_to_theirs 1 [(2, -100)] ≤ base_to_theirs 2 [(2, -100)]
      ∧ ¬ base_to_ours 1 [(2, -100)] ≤ base_to_ours 2 [(2, -100)] := by
  refine ⟨?_, by decide, by decide, by decide⟩
  unfold sorted_by_pos; decide

/-- C2 witness: the amended monotonicity theorem instantiated at the sorted
non-negative list `[(0, 1), (2, 3)]` and rows `1 < 2`. -/
theorem base_map_monotone_witness :
    base_to_theirs 1 [((0:Nat), (1:Int)), (2, 3)] ≤ base_to_theirs 2 [(0, 1), (2, 3)]
      ∧ base_to_ours 1 [(0, 1), (2, 3)] ≤ base_to_ours 2 [(0, 1), (2, 3)] :=
  base_map_monotone_nonneg [(0, 1), (2, 3)] 1 2
    (by unfold sorted_by_pos; decide) (by decide) (by decide)

/-! ## Claim C4: non-Pending hunks and the bookkeeping lists -/

theorem change_events_filter_pending (t o : List MergeHunk) :
    change_events t o
      = change_events (t.filter fun h => h.status == .Pending)
          (o.filter fun h => h.status == .Pending) := by
  have aux : ∀ (l : List MergeHunk) (f : MergeHunk → ChangeEvent),
      ((l.filter fun h => h.status == .Pending).filterMap
          fun h => if h.status = .Pending then some (f h) else none)
        = (l.filterMap fun h => if h.status = .Pending then some (f h) else none) := by
    intro l f
    induction l with
    | nil => rfl
    | cons a l ih =>
        by_cases hp : a.status = .Pending <;>
          simp [List.filter_cons, List.filterMap_cons, hp, ih]
  unfold change_events
  rw [aux, aux]

/-- C4 (amended).  Non-Pending hunks are excluded from conflict-region
construction, and — contrary to the claim — they are excluded from the
coordinate-offset bookkeeping as well: the event list is unchanged by
discarding non-Pending hunks, and the change-offset list is exactly the
sorted list of one entry per Pending hunk. -/
theorem only_pending_contribute (t o hunks : List MergeHunk) :
    change_events t o
        = change_events (t.filter fun h => h.status == .Pending)
            (o.filter fun h => h.status == .Pending)
      ∧ pending_changes hunks
        = sortByLe changeLe
            ((hunks.filter fun h => h.status == .Pending).map change_entry) := by
  refine ⟨change_events_filter_pending t o, ?_⟩
  unfold pending_changes
  rw [filterMap_ite_eq_map_filter (fun h => h.status = .Pending) change_entry hunks]
  rfl

/-- C4 counterexample: an Accepted hunk (base rows `[2,4)`, source rows
`[2,7)`, so a delta of `3`) contributes no entry at all to the
coordinate-offset list, contradicting the claim that non-Pending hunks still
consume coordinate-offset bookkeeping. -/
theorem accepted_contributes_no_entry :
    pending_changes
        [{ side := .Theirs, kind := .Modified, source_rows := ⟨2, 7⟩,
           base_rows := ⟨2, 4⟩, text := [], status := .Accepted }] = []
      ∧ change_entry
          { side := .Theirs, kind := .Modified, source_rows := ⟨2, 7⟩,
            base_rows := ⟨2, 4⟩, text := [], status := .Accepted } = (2, 3) := by
  constructor <;> decide

/-! ## Claim C6: region merging refines the claim's description -/

theorem foldl_merge_step_eq_scan (es : List ChangeEvent) :
    ∀ (acc : List MergedRegion) (cur : MergedRegion),
      es.foldl merge_step (acc ++ [cur]) = acc ++ spec_scan_regions cur es := by
  induction es with
  | nil => intro acc cur; simp [spec_scan_regions]
  | cons e es ih =>
      intro acc cur
      have hstep : merge_step (acc ++ [cur]) e =
          if e.base_range.start ≤ cur.base_end then acc ++ [merge_event_into cur e]
          else (acc ++ [cur]) ++ [region_of_event e] := by
        simp [merge_step, List.getLast?_concat, List.dropLast_concat]
      by_cases hc : e.base_range.start ≤ cur.base_end
      · simp only [List.foldl_cons, hstep, if_pos hc, spec_scan_regions, ih]
      · simp only [List.foldl_cons, hstep, if_neg hc, spec_scan_regions,
          ih (acc ++ [cur]) (region_of_event e)]
        simp

theorem spec_change_events_eq (t o : List MergeHunk) :
    spec_change_events t o = change_events t o := by
  have aux : ∀ (l : List MergeHunk) (f : MergeHunk → ChangeEvent),
      ((l.filter fun h => h.status == .Pending).map f)
        = (l.filterMap fun h => if h.status = .Pending then some (f h) else none) := by
    intro l f
    induction l with
    | nil => rfl
    | cons a l ih =>
        by_cases hp : a.status = .Pending <;>
          simp [List.filter_cons, List.filterMap_cons, hp, ih]
  unfold spec_change_events change_events
  rw [aux, aux]

/-- C6.  For every pair of hunk lists, the source's region-merging loop
(`merged_regions_of`, folding `merge_step` over the sorted events) produces
exactly the regions described by the claim (`spec_merged_regions`: one event
per Pending hunk, sorted by (base start, base end), scanned left to right,
merging on `base_start ≤ current base_end`, extending the end to the maximum
and appending the side-tagged source range). -/
theorem merged_regions_refine_spec (t o : List MergeHunk) :
    merged_regions_of t o = spec_merged_regions t o := by
  unfold merged_regions_of spec_merged_regions
  rw [spec_change_events_eq]
  cases hs : sortByLe eventLe (change_events t o) with
  | nil => rfl
  | cons e es =>
      have hfirst : merge_step [] e = [] ++ [region_of_event e] := rfl
      calc (e :: es).foldl merge_step []
          = es.foldl merge_step ([] ++ [region_of_event e]) := by
            simp [List.foldl_cons, hfirst]
        _ = [] ++ spec_scan_regions (region_of_event e) es :=
            foldl_merge_step_eq_scan es [] (region_of_event e)
        _ = spec_scan_regions (region_of_event e) es := by simp

/-! ## Claim C7: per-region padding is exact -/

/-- The line count of an optional padding instruction. -/
def pad_count (o : Option (Nat × Nat)) : Nat :=
  match o with
  | some x => x.2
  | none => 0

/-- The line count of an optional base padding instruction. -/
def pad_count_base (o : Option (Nat × Nat × Bool)) : Nat :=
  match o with
  | some x => x.2.1
  | none => 0

/-- C7.  For every merged region, each space below the maximum line count
gets exactly one padding instruction of `max - count` lines (at the row the
source computes) and no instruction otherwise; a region with a maximum of
zero emits nothing; and every space's line count plus its emitted padding
equals the maximum. -/
theorem plan_region_padding_exact (r : MergedRegion)
    (theirs_changes ours_changes : List (Nat × Int)) :
    ((plan_region r theirs_changes ours_changes).1
        = if region_theirs_lines r < region_max_lines r then
            some (theirs_insert_row r theirs_changes,
              region_max_lines r - region_theirs_lines r)
          else none)
      ∧ ((plan_region r theirs_changes ours_changes).2.1
          = if region_base_lines r < region_max_lines r then
              some (r.base_end, region_max_lines r - region_base_lines r,
                decide (region_theirs_lines r ≥ region_ours_lines r))
            else none)
      ∧ ((plan_region r theirs_changes ours_changes).2.2
          = if region_ours_lines r < region_max_lines r then
              some (ours_insert_row r ours_changes,
                region_max_lines r - region_ours_lines r)
            else none)
      ∧ (region_max_lines r = 0 →
          plan_region r theirs_changes ours_changes = (none, none, none))
      ∧ region_theirs_lines r + pad_count (plan_region r theirs_changes ours_changes).1
          = region_max_lines r
      ∧ region_base_lines r + pad_count_base (plan_region r theirs_changes ours_changes).2.1
          = region_max_lines r
      ∧ region_ours_lines r + pad_count (plan_region r theirs_changes ours_changes).2.2
          = region_max_lines r := by
  have htl : region_theirs_lines r ≤ region_max_lines r := by
    unfold region_max_lines; omega
  have hol : region_ours_lines r ≤ region_max_lines r := by
    unfold region_max_lines; omega
  have hbl : region_base_lines r ≤ region_max_lines r := by
    unfold region_max_lines; omega
  by_cases hz : region_max_lines r = 0
  · have h1 : region_theirs_lines r = 0 := by omega
    have h2 : region_ours_lines r = 0 := by omega
    have h3 : region_base_lines r = 0 := by omega
    simp [plan_region, hz, h1, h2, h3, pad_count, pad_count_base]
  · have hplan : plan_region r theirs_changes ours_changes =
        (if region_theirs_lines r < region_max_lines r then
            some (theirs_insert_row r theirs_changes,
              region_max_lines r - region_theirs_lines r)
          else none,
         if region_base_lines r < region_max_lines r then
            some (r.base_end, region_max_lines r - region_base_lines r,
              decide (region_theirs_lines r ≥ region_ours_lines r))
          else none,
         if region_ours_lines r < region_max_lines r then
            some (ours_insert_row r ours_changes,
              region_max_lines r - region_ours_lines r)
          else none) := by
      simp only [plan_region, if_neg hz]
    rw [hplan]
    refine ⟨rfl, rfl, rfl, fun h => absurd h hz, ?_, ?_, ?_⟩
    · by_cases h : region_theirs_lines r < region_max_lines r <;>
        simp [h, pad_count] <;> omega
    · by_cases h : region_base_lines r < region_max_lines r <;>
        simp [h, pad_count_base] <;> omega
    · by_cases h : region_ours_lines r < region_max_lines r <;>
        simp [h, pad_count] <;> omega

/-- C7 witness: the padding theorem instantiated at the degenerate region with
empty base range `[2,2)` and no tracked ranges (all counts and the maximum are
zero): no padding instruction is emitted. -/
theorem plan_region_padding_witness :
    plan_region { base_start := 2, base_end := 2, theirs_ranges := [], ours_ranges := [] } [] []
      = (none, none, none) :=
  (plan_region_padding_exact
    { base_start := 2, base_end := 2, theirs_ranges := [], ours_ranges := [] } [] []).2.2.2.1
    (by decide)

/-! ## Claims C9 and C10: recomputation and the accept-all operations -/

theorem compute_diff_hunks_status (b t : List String) (side : MergeSide) :
    ∀ h ∈ compute_diff_hunks b t side, h.status = .Pending := by
  intro h hm
  unfold compute_diff_hunks at hm
  rw [List.mem_filterMap] at hm
  obtain ⟨op, _, hcl⟩ := hm
  cases op <;> simp [classifyOp] at hcl <;> rw [← hcl]

theorem all_nonpending_iff_nil (l : List MergeHunk)
    (hp : ∀ h ∈ l, h.status = .Pending) :
    (l.all fun h => h.status != .Pending) = true ↔ l = [] := by
  cases l with
  | nil => simp
  | cons a l =>
      have ha : a.status = .Pending := hp a (by simp)
      simp [List.all_cons, ha]

/-- C9.  Immediately after a recomputation pass every stored hunk (on both
sides) has status Pending, and therefore the all-hunks-processed check
(precondition of Mark As Resolved) holds exactly when both hunk lists are
empty. -/
theorem recompute_resets_statuses (s : MergeState) :
    (∀ h ∈ (update_alignment_and_highlighting s).theirsHunks, h.status = .Pending)
      ∧ (∀ h ∈ (update_alignment_and_highlighting s).oursHunks, h.status = .Pending)
      ∧ (all_hunks_processed (update_alignment_and_highlighting s) = true
          ↔ (update_alignment_and_highlighting s).theirsHunks = []
            ∧ (update_alignment_and_highlighting s).oursHunks = []) := by
  have h1 : ∀ h ∈ (update_alignment_and_highlighting s).theirsHunks, h.status = .Pending :=
    compute_diff_hunks_status s.baseLines s.theirsLines .Theirs
  have h2 : ∀ h ∈ (update_alignment_and_highlighting s).oursHunks, h.status = .Pending :=
    compute_diff_hunks_status s.baseLines s.oursLines .Ours
  refine ⟨h1, h2, ?_⟩
  unfold all_hunks_processed
  rw [Bool.and_eq_true, all_nonpending_iff_nil _ h1, all_nonpending_iff_nil _ h2]

/-- C9 witness: the recomputation theorem instantiated at a state whose base
is `a` and whose theirs text is `b`: the check does not hold since the theirs
diff is a non-empty list of (Pending) hunks. -/
theorem recompute_resets_witness :
    all_hunks_processed
        (update_alignment_and_highlighting
          { theirsLines := ["b"], baseLines := ["a"], oursLines := ["a"],
            theirsHunks := [], oursHunks := [] }) = true
      ↔ (update_alignment_and_highlighting
          { theirsLines := ["b"], baseLines := ["a"], oursLines := ["a"],
            theirsHunks := [], oursHunks := [] }).theirsHunks = []
        ∧ (update_alignment_and_highlighting
            { theirsLines := ["b"], baseLines := ["a"], oursLines := ["a"],
              theirsHunks := [], oursHunks := [] }).oursHunks = [] :=
  (recompute_resets_statuses
    { theirsLines := ["b"], baseLines := ["a"], oursLines := ["a"],
      theirsHunks := [], oursHunks := [] }).2.2

theorem mark_all_no_pending (l : List MergeHunk) :
    ∀ h ∈ mark_all_pending_accepted l, h.status ≠ .Pending := by
  intro h hm
  unfold mark_all_pending_accepted at hm
  rw [List.mem_map] at hm
  obtain ⟨h0, _, heq⟩ := hm
  by_cases hp : h0.status = .Pending <;> simp [hp] at heq <;> rw [← heq] <;> simp [hp]

/-- C10.  The accept-all operations only write statuses: the three buffers'
lines are left completely unchanged (no `apply_hunk_to_base` call), while
the marking loop turns every Pending hunk into the same hunk with status
Accepted and leaves no hunk Pending. -/
theorem accept_all_leaves_buffers (s : MergeState) :
    (accept_all_theirs s).baseLines = s.baseLines
      ∧ (accept_all_theirs s).theirsLines = s.theirsLines
      ∧ (accept_all_theirs s).oursLines = s.oursLines
      ∧ (accept_all_ours s).baseLines = s.baseLines
      ∧ (accept_all_ours s).theirsLines = s.theirsLines
      ∧ (accept_all_ours s).oursLines = s.oursLines
      ∧ (∀ h ∈ mark_all_pending_accepted s.theirsHunks, h.status ≠ .Pending)
      ∧ (∀ h ∈ mark_all_pending_accepted s.oursHunks, h.status ≠ .Pending)
      ∧ (∀ h ∈ s.theirsHunks, h.status = .Pending →
          ({ h with status := .Accepted } : MergeHunk) ∈ mark_all_pending_accepted s.theirsHunks)
      ∧ (∀ h ∈ s.oursHunks, h.status = .Pending →
          ({ h with status := .Accepted } : MergeHunk) ∈ mark_all_pending_accepted s.oursHunks) := by
  refine ⟨rfl, rfl, rfl, rfl, rfl, rfl,
    mark_all_no_pending s.theirsHunks, mark_all_no_pending s.oursHunks, ?_, ?_⟩ <;>
  · intro h hm hp
    have : ({ h with status := .Accepted } : MergeHunk)
        = (fun h => if h.status = .Pending then { h with status := .Accepted } else h) h := by
      simp [hp]
    rw [this]
    exact List.mem_map_of_mem _ hm

/-- C10 witness: the accept-all frame theorem instantiated at a state with one
Pending theirs hunk: the base buffer is unchanged. -/
theorem accept_all_witness :
    (accept_all_theirs
        ⟨["X"], ["a"], ["a"],
          [⟨.Theirs, .Modified, ⟨0, 1⟩, ⟨0, 1⟩, ["X"], .Pending⟩], []⟩).baseLines = ["a"] :=
  (accept_all_leaves_buffers
    ⟨["X"], ["a"], ["a"],
      [⟨.Theirs, .Modified, ⟨0, 1⟩, ⟨0, 1⟩, ["X"], .Pending⟩], []⟩).1

/-! ## Claim C3: applying a non-Pending hunk -/

theorem accept_noop_aux (s : MergeState) (i : Nat) :
    (∀ h, s.theirsHunks[i]? = some h → h.status ≠ .Pending → accept_theirs_hunk s i = s)
      ∧ (∀ h, s.oursHunks[i]? = some h → h.status ≠ .Pending → accept_ours_hunk s i = s) := by
  constructor
  · intro h hget hst
    simp [accept_theirs_hunk, hget, hst]
  · intro h hget hst
    simp [accept_ours_hunk, hget, hst]

/-- C3 (amended).  The accept operations return no error at all: their Rust
signatures return `()`, and on a hunk whose status is not Pending they take
the early-return arm, so the whole merge state — base buffer included — is
returned unchanged.  There is no `ApplyError`; the failure is silent. -/
theorem accept_non_pending_noop (s : MergeState) (i : Nat) :
    (∀ h, s.theirsHunks[i]? = some h → h.status ≠ .Pending → accept_theirs_hunk s i = s)
      ∧ (∀ h, s.oursHunks[i]? = some h → h.status ≠ .Pending → accept_ours_hunk s i = s) :=
  accept_noop_aux s i

/-- C3 counterexample: a state whose single theirs hunk is already Accepted
(and whose single ours hunk is already Ignored).  Calling the accept
operations again returns the state itself — no error value exists and nothing
is reported; the claim's `Result<(), ApplyError>` failure does not happen. -/
theorem accept_non_pending_silent_cex :
    (MergeState.theirsHunks
          ⟨["X"], ["a", "b"], ["Y"], [⟨.Theirs, .Modified, ⟨0, 1⟩, ⟨0, 1⟩, ["X"], .Accepted⟩],
            [⟨.Ours, .Modified, ⟨0, 1⟩, ⟨0, 1⟩, ["Y"], .Ignored⟩]⟩).map (fun h => h.status)
        = [.Accepted]
      ∧ accept_theirs_hunk
          ⟨["X"], ["a", "b"], ["Y"], [⟨.Theirs, .Modified, ⟨0, 1⟩, ⟨0, 1⟩, ["X"], .Accepted⟩],
            [⟨.Ours, .Modified, ⟨0, 1⟩, ⟨0, 1⟩, ["Y"], .Ignored⟩]⟩ 0
        = ⟨["X"], ["a", "b"], ["Y"], [⟨.Theirs, .Modified, ⟨0, 1⟩, ⟨0, 1⟩, ["X"], .Accepted⟩],
            [⟨.Ours, .Modified, ⟨0, 1⟩, ⟨0, 1⟩, ["Y"], .Ignored⟩]⟩
      ∧ accept_ours_hunk
          ⟨["X"], ["a", "b"], ["Y"], [⟨.Theirs, .Modified, ⟨0, 1⟩, ⟨0, 1⟩, ["X"], .Accepted⟩],
            [⟨.Ours, .Modified, ⟨0, 1⟩, ⟨0, 1⟩, ["Y"], .Ignored⟩]⟩ 0
        = ⟨["X"], ["a", "b"], ["Y"], [⟨.Theirs, .Modified, ⟨0, 1⟩, ⟨0, 1⟩, ["X"], .Accepted⟩],
            [⟨.Ours, .Modified, ⟨0, 1⟩, ⟨0, 1⟩, ["Y"], .Ignored⟩]⟩ := by
  refine ⟨by decide, by decide, by decide⟩

/-- C3 witness: the amended no-op theorem applied to the state of the
counterexample, discharging both hypotheses at index 0. -/
theorem accept_non_pending_witness :
    accept_theirs_hunk
        ⟨["X"], ["a"], ["Y"], [⟨.Theirs, .Deleted, ⟨1, 1⟩, ⟨0, 1⟩, [], .Accepted⟩], []⟩ 0
      = ⟨["X"], ["a"], ["Y"], [⟨.Theirs, .Deleted, ⟨1, 1⟩, ⟨0, 1⟩, [], .Accepted⟩], []⟩ :=
  (accept_non_pending_noop
      ⟨["X"], ["a"], ["Y"], [⟨.Theirs, .Deleted, ⟨1, 1⟩, ⟨0, 1⟩, [], .Accepted⟩], []⟩ 0).1
    ⟨.Theirs, .Deleted, ⟨1, 1⟩, ⟨0, 1⟩, [], .Accepted⟩ rfl (by decide)

/-! ## Claim C8: status transitions -/

/-- C8 (amended).  The accept path only ever performs the transition
Pending → Accepted (on a non-Pending hunk it is a complete no-op), and an
ignore operation never touches the base buffer; but the ignore operations'
status write is unconditional: whatever the current status of the indexed
hunk — Accepted included — it is overwritten with Ignored before the
recomputation that follows discards the whole hunk list. -/
theorem ignore_overwrites_status (s : MergeState) (i : Nat) (h : MergeHunk) :
    (s.theirsHunks[i]? = some h →
        (ignore_mark_theirs s i).theirsHunks[i]? = some { h with status := .Ignored }
          ∧ (ignore_theirs_hunk s i).baseLines = s.baseLines
          ∧ (h.status ≠ .Pending → accept_theirs_hunk s i = s))
      ∧ (s.oursHunks[i]? = some h →
          (ignore_mark_ours s i).oursHunks[i]? = some { h with status := .Ignored }
            ∧ (ignore_ours_hunk s i).baseLines = s.baseLines
            ∧ (h.status ≠ .Pending → accept_ours_hunk s i = s)) := by
  constructor
  · intro hget
    have hlt : i < s.theirsHunks.length := by
      by_contra hc
      rw [List.getElem?_eq_none (by omega)] at hget
      exact Option.noConfusion hget
    refine ⟨?_, ?_, fun hst => (accept_noop_aux s i).1 h hget hst⟩
    · simp [ignore_mark_theirs, set_status_at, hget, List.getElem?_set_self hlt]
    · simp [ignore_theirs_hunk, hget, update_alignment_and_highlighting, ignore_mark_theirs]
  · intro hget
    have hlt : i < s.oursHunks.length := by
      by_contra hc
      rw [List.getElem?_eq_none (by omega)] at hget
      exact Option.noConfusion hget
    refine ⟨?_, ?_, fun hst => (accept_noop_aux s i).2 h hget hst⟩
    · simp [ignore_mark_ours, set_status_at, hget, List.getElem?_set_self hlt]
    · simp [ignore_ours_hunk, hget, update_alignment_and_highlighting, ignore_mark_ours]

/-- C8 counterexample: in a state whose theirs hunk 0 is already Accepted,
the status write of the ignore operation turns it into Ignored — an
Accepted → Ignored transition, which the claim rules out. -/
theorem accepted_becomes_ignored_cex :
    (MergeState.theirsHunks
          ⟨["X"], ["a"], ["a"], [⟨.Theirs, .Modified, ⟨0, 1⟩, ⟨0, 1⟩, ["X"], .Accepted⟩],
            []⟩).map (fun h => h.status) = [.Accepted]
      ∧ ((ignore_mark_theirs
            ⟨["X"], ["a"], ["a"], [⟨.Theirs, .Modified, ⟨0, 1⟩, ⟨0, 1⟩, ["X"], .Accepted⟩],
              []⟩ 0).theirsHunks).map (fun h => h.status) = [.Ignored] := by
  refine ⟨by decide, by decide⟩

/-- C8 witness: the amended transition theorem applied at the counterexample
state, index 0 and its Accepted hunk, with the hypotheses discharged. -/
theorem ignore_overwrites_witness :
    (ignore_mark_theirs
          ⟨["X"], ["a"], ["a"], [⟨.Theirs, .Modified, ⟨0, 1⟩, ⟨0, 1⟩, ["X"], .Accepted⟩], []⟩
          0).theirsHunks[0]?
        = some ⟨.Theirs, .Modified, ⟨0, 1⟩, ⟨0, 1⟩, ["X"], .Ignored⟩
      ∧ accept_theirs_hunk
          ⟨["X"], ["a"], ["a"], [⟨.Theirs, .Modified, ⟨0, 1⟩, ⟨0, 1⟩, ["X"], .Accepted⟩], []⟩ 0
        = ⟨["X"], ["a"], ["a"], [⟨.Theirs, .Modified, ⟨0, 1⟩, ⟨0, 1⟩, ["X"], .Accepted⟩], []⟩ := by
  have hmain := (ignore_overwrites_status
    ⟨["X"], ["a"], ["a"], [⟨.Theirs, .Modified, ⟨0, 1⟩, ⟨0, 1⟩, ["X"], .Accepted⟩], []⟩ 0
    ⟨.Theirs, .Modified, ⟨0, 1⟩, ⟨0, 1⟩, ["X"], .Accepted⟩).1 rfl
  exact ⟨hmain.1, hmain.2.2 (by decide)⟩


/-! ## The modelled differ emits a valid grouped edit script (claims C5, C1) -/

/-- How a per-line operation stream relates two line sequences: keep consumes
one equal line from both sides, del consumes one old line, ins one new line. -/
inductive LScript : List String → List String → List LineOp → Prop where
  | nil : LScript [] [] []
  | keep (a : String) (as bs : List String) (t : List LineOp) :
      LScript as bs t → LScript (a :: as) (a :: bs) (.keep :: t)
  | del (a : String) (as bs : List String) (t : List LineOp) :
      LScript as bs t → LScript (a :: as) bs (.del :: t)
  | ins (b : String) (as bs : List String) (t : List LineOp) :
      LScript as bs t → LScript as (b :: bs) (.ins :: t)

theorem diffLinesF_lscript : ∀ (fuel : Nat) (old new : List String),
    old.length + new.length ≤ fuel → LScript old new (diffLinesF fuel old new) := by
  intro fuel
  induction fuel with
  | zero =>
      intro old new h
      cases old with
      | nil =>
          cases new with
          | nil => exact LScript.nil
          | cons b bs => simp at h
      | cons a as => simp at h
  | succ fuel ih =>
      intro old new h
      cases old with
      | nil =>
          cases new with
          | nil => exact LScript.nil
          | cons b bs =>
              exact LScript.ins b [] bs _
                (ih [] bs (by simp only [List.length_cons, List.length_nil] at h ⊢; omega))
      | cons a as =>
          cases new with
          | nil =>
              exact LScript.del a as [] _
                (ih as [] (by simp only [List.length_cons, List.length_nil] at h ⊢; omega))
          | cons b bs =>
              by_cases hab : a = b
              · subst hab
                simp only [diffLinesF, if_pos rfl]
                exact LScript.keep a as bs _
                  (ih as bs (by simp only [List.length_cons] at h ⊢; omega))
              · by_cases hc : lcsLen (a :: as) bs ≤ lcsLen as (b :: bs)
                · simp only [diffLinesF, if_neg hab, if_pos hc]
                  exact LScript.del a as (b :: bs) _
                    (ih as (b :: bs) (by simp only [List.length_cons] at h ⊢; omega))
                · simp only [diffLinesF, if_neg hab, if_neg hc]
                  exact LScript.ins b (a :: as) bs _
                    (ih (a :: as) bs (by simp only [List.length_cons] at h ⊢; omega))

theorem diffLines_lscript (old new : List String) : LScript old new (diffLines old new) :=
  diffLinesF_lscript _ old new (Nat.le_refl _)

theorem lscript_nil_inv {l1 l2 : List String} (h : LScript l1 l2 []) :
    l1 = [] ∧ l2 = [] := by
  cases h
  exact ⟨rfl, rfl⟩

theorem lscript_keep_inv {l1 l2 : List String} {t : List LineOp}
    (h : LScript l1 l2 (.keep :: t)) :
    ∃ a as bs, l1 = a :: as ∧ l2 = a :: bs ∧ LScript as bs t := by
  cases h with
  | keep a as bs t ht => exact ⟨a, as, bs, rfl, rfl, ht⟩

theorem lscript_del_inv {l1 l2 : List String} {t : List LineOp}
    (h : LScript l1 l2 (.del :: t)) :
    ∃ a as, l1 = a :: as ∧ LScript as l2 t := by
  cases h with
  | del a as bs t ht => exact ⟨a, as, rfl, ht⟩

theorem lscript_ins_inv {l1 l2 : List String} {t : List LineOp}
    (h : LScript l1 l2 (.ins :: t)) :
    ∃ b bs, l2 = b :: bs ∧ LScript l1 bs t := by
  cases h with
  | ins b as bs t ht => exact ⟨b, bs, rfl, ht⟩

theorem drop_cons_inv {α : Type} (l : List α) (n : Nat) (a : α) (as : List α)
    (h : l.drop n = a :: as) : n < l.length ∧ l.drop (n + 1) = as := by
  constructor
  · by_contra hc
    rw [List.drop_eq_nil_of_le (by omega)] at h
    exact List.noConfusion h
  · rw [← List.tail_drop, h]
    rfl

/-- The tail after a change operation: nothing, or an Equal operation
(`groupOps` emits a change run only at the end of the stream or right before
an equal run). -/
def isNilOrEqual : List DiffOp → Prop
  | [] => True
  | .equal _ _ _ :: _ => True
  | _ => False

/-- A valid grouped edit script for `(old, new)` starting at old index `oi`
and new index `ni`: each operation carries the indices at which it applies
and consumes the corresponding segments; Equal segments coincide in `old`
and `new`; every run is non-empty; and an Insert is followed by nothing or
by an Equal operation. -/
inductive Script (old new : List String) : Nat → Nat → List DiffOp → Prop where
  | nil (oi ni : Nat) :
      oi = old.length → ni = new.length → Script old new oi ni []
  | equal (oi ni k : Nat) (rest : List DiffOp) :
      1 ≤ k → oi + k ≤ old.length → ni + k ≤ new.length →
      (old.drop oi).take k = (new.drop ni).take k →
      Script old new (oi + k) (ni + k) rest →
      Script old new oi ni (.equal oi ni k :: rest)
  | delete (oi ni d : Nat) (rest : List DiffOp) :
      1 ≤ d → oi + d ≤ old.length → ni ≤ new.length →
      Script old new (oi + d) ni rest →
      Script old new oi ni (.delete oi d ni :: rest)
  | insert (oi ni i : Nat) (rest : List DiffOp) :
      1 ≤ i → oi ≤ old.length → ni + i ≤ new.length →
      isNilOrEqual rest →
      Script old new oi (ni + i) rest →
      Script old new oi ni (.insert oi ni i :: rest)
  | replace (oi ni d i : Nat) (rest : List DiffOp) :
      1 ≤ d → 1 ≤ i → oi + d ≤ old.length → ni + i ≤ new.length →
      Script old new (oi + d) (ni + i) rest →
      Script old new oi ni (.replace oi d ni i :: rest)

theorem groupOps_equal_head (lops : List LineOp) : ∀ (oi ni k : Nat),
    ∃ k' rest', groupOps oi ni (.equal k) lops = .equal oi ni k' :: rest' := by
  induction lops with
  | nil => intro oi ni k; exact ⟨k, [], rfl⟩
  | cons op rest ih =>
      intro oi ni k
      cases op with
      | keep => exact ih oi ni (k + 1)
      | del => exact ⟨k, _, rfl⟩
      | ins => exact ⟨k, _, rfl⟩

theorem isNilOrEqual_groupOps_equal (oi ni k : Nat) (lops : List LineOp) :
    isNilOrEqual (groupOps oi ni (.equal k) lops) := by
  obtain ⟨k', rest', h⟩ := groupOps_equal_head lops oi ni k
  rw [h]
  trivial

theorem groupOps_script (old new : List String) : ∀ (lops : List LineOp) (oi ni : Nat)
    (pend : PendingRun),
    (match pend with
     | .change d i =>
         oi + d ≤ old.length ∧ ni + i ≤ new.length
           ∧ LScript (old.drop (oi + d)) (new.drop (ni + i)) lops
     | .equal k =>
         1 ≤ k ∧ oi + k ≤ old.length ∧ ni + k ≤ new.length
           ∧ (old.drop oi).take k = (new.drop ni).take k
           ∧ LScript (old.drop (oi + k)) (new.drop (ni + k)) lops) →
    Script old new oi ni (groupOps oi ni pend lops) := by
  intro lops
  induction lops with
  | nil =>
      intro oi ni pend hinv
      cases pend with
      | change d i =>
          obtain ⟨hdo, hin, hls⟩ := hinv
          obtain ⟨ho, hn⟩ := lscript_nil_inv hls
          have ho' : oi + d = old.length := by
            have := List.drop_eq_nil_iff.mp ho
            omega
          have hn' : ni + i = new.length := by
            have := List.drop_eq_nil_iff.mp hn
            omega
          show Script old new oi ni (emitChange oi ni d i)
          cases d with
          | zero =>
              cases i with
              | zero => exact Script.nil oi ni (by omega) (by omega)
              | succ i' =>
                  exact Script.insert oi ni (i' + 1) [] (by omega) (by omega) (by omega)
                    trivial (Script.nil oi (ni + (i' + 1)) (by omega) (by omega))
          | succ d' =>
              cases i with
              | zero =>
                  exact Script.delete oi ni (d' + 1) [] (by omega) (by omega) (by omega)
                    (Script.nil (oi + (d' + 1)) ni (by omega) (by omega))
              | succ i' =>
                  exact Script.replace oi ni (d' + 1) (i' + 1) [] (by omega) (by omega)
                    (by omega) (by omega)
                    (Script.nil (oi + (d' + 1)) (ni + (i' + 1)) (by omega) (by omega))
      | equal k =>
          obtain ⟨hk, hko, hkn, hseg, hls⟩ := hinv
          obtain ⟨ho, hn⟩ := lscript_nil_inv hls
          have ho' : oi + k = old.length := by
            have := List.drop_eq_nil_iff.mp ho
            omega
          have hn' : ni + k = new.length := by
            have := List.drop_eq_nil_iff.mp hn
            omega
          exact Script.equal oi ni k [] hk hko hkn hseg
            (Script.nil (oi + k) (ni + k) ho' hn')
  | cons op rest ih =>
      intro oi ni pend hinv
      cases pend with
      | change d i =>
          obtain ⟨hdo, hin, hls⟩ := hinv
          cases op with
          | keep =>
              obtain ⟨a, as, bs, h1, h2, hls'⟩ := lscript_keep_inv hls
              obtain ⟨hlt1, hdr1⟩ := drop_cons_inv _ _ _ _ h1
              obtain ⟨hlt2, hdr2⟩ := drop_cons_inv _ _ _ _ h2
              have hseg1 : (old.drop (oi + d)).take 1 = (new.drop (ni + i)).take 1 := by
                rw [h1, h2]
                rfl
              have hSE : Script old new (oi + d) (ni + i)
                  (groupOps (oi + d) (ni + i) (.equal 1) rest) := by
                apply ih (oi + d) (ni + i) (.equal 1)
                refine ⟨Nat.le_refl 1, by omega, by omega, hseg1, ?_⟩
                show LScript (old.drop (oi + d + 1)) (new.drop (ni + i + 1)) rest
                rw [hdr1, hdr2]
                exact hls'
              show Script old new oi ni
                (emitChange oi ni d i ++ groupOps (oi + d) (ni + i) (.equal 1) rest)
              cases d with
              | zero =>
                  cases i with
                  | zero => exact hSE
                  | succ i' =>
                      exact Script.insert oi ni (i' + 1) _ (by omega) (by omega) (by omega)
                        (isNilOrEqual_groupOps_equal _ _ _ _) hSE
              | succ d' =>
                  cases i with
                  | zero =>
                      exact Script.delete oi ni (d' + 1) _ (by omega) (by omega) (by omega) hSE
                  | succ i' =>
                      exact Script.replace oi ni (d' + 1) (i' + 1) _ (by omega) (by omega)
                        (by omega) (by omega) hSE
          | del =>
              obtain ⟨a, as, h1, hls'⟩ := lscript_del_inv hls
              obtain ⟨hlt1, hdr1⟩ := drop_cons_inv _ _ _ _ h1
              apply ih oi ni (.change (d + 1) i)
              refine ⟨by omega, by omega, ?_⟩
              show LScript (old.drop (oi + d + 1)) (new.drop (ni + i)) rest
              rw [hdr1]
              exact hls'
          | ins =>
              obtain ⟨b, bs, h2, hls'⟩ := lscript_ins_inv hls
              obtain ⟨hlt2, hdr2⟩ := drop_cons_inv _ _ _ _ h2
              apply ih oi ni (.change d (i + 1))
              refine ⟨by omega, by omega, ?_⟩
              show LScript (old.drop (oi + d)) (new.drop (ni + i + 1)) rest
              rw [hdr2]
              exact hls'
      | equal k =>
          obtain ⟨hk, hko, hkn, hseg, hls⟩ := hinv
          cases op with
          | keep =>
              obtain ⟨a, as, bs, h1, h2, hls'⟩ := lscript_keep_inv hls
              obtain ⟨hlt1, hdr1⟩ := drop_cons_inv _ _ _ _ h1
              obtain ⟨hlt2, hdr2⟩ := drop_cons_inv _ _ _ _ h2
              apply ih oi ni (.equal (k + 1))
              refine ⟨by omega, by omega, by omega, ?_, ?_⟩
              · rw [List.take_add (old.drop oi) k 1, List.take_add (new.drop ni) k 1,
                  List.drop_drop, List.drop_drop, h1, h2, hseg]
                rfl
              · show LScript (old.drop (oi + k + 1)) (new.drop (ni + k + 1)) rest
                rw [hdr1, hdr2]
                exact hls'
          | del =>
              obtain ⟨a, as, h1, hls'⟩ := lscript_del_inv hls
              obtain ⟨hlt1, hdr1⟩ := drop_cons_inv _ _ _ _ h1
              refine Script.equal oi ni k _ hk hko hkn hseg ?_
              apply ih (oi + k) (ni + k) (.change 1 0)
              refine ⟨by omega, by omega, ?_⟩
              show LScript (old.drop (oi + k + 1)) (new.drop (ni + k + 0)) rest
              rw [hdr1]
              exact hls'
          | ins =>
              obtain ⟨b, bs, h2, hls'⟩ := lscript_ins_inv hls
              obtain ⟨hlt2, hdr2⟩ := drop_cons_inv _ _ _ _ h2
              refine Script.equal oi ni k _ hk hko hkn hseg ?_
              apply ih (oi + k) (ni + k) (.change 0 1)
              refine ⟨by omega, by omega, ?_⟩
              show LScript (old.drop (oi + k + 0)) (new.drop (ni + k + 1)) rest
              rw [hdr2]
              exact hls'

/-- The modelled differ emits a valid grouped edit script. -/
theorem textDiffOps_script (old new : List String) :
    Script old new 0 0 (textDiffOps old new) := by
  apply groupOps_script old new (diffLines old new) 0 0 (.change 0 0)
  exact ⟨Nat.zero_le _, Nat.zero_le _, diffLines_lscript old new⟩

/-! ## Claim C1: round-trip -/

theorem script_nil_bound {old new : List String} {oi ni : Nat}
    (h : Script old new oi ni []) : oi = old.length ∧ ni = new.length := by
  cases h with
  | nil _ _ h1 h2 => exact ⟨h1, h2⟩

theorem script_equal_bound {old new : List String} {oi ni a b k : Nat} {tl : List DiffOp}
    (h : Script old new oi ni (.equal a b k :: tl)) : 1 ≤ k ∧ ni + k ≤ new.length := by
  cases h with
  | equal _ _ _ _ hk hko hkn hseg hr => exact ⟨hk, hkn⟩

theorem filterMap_classify_equal (new : List String) (side : MergeSide)
    (a b k : Nat) (rest : List DiffOp) :
    (DiffOp.equal a b k :: rest).filterMap (classifyOp new side)
      = rest.filterMap (classifyOp new side) := rfl

theorem filterMap_classify_delete (new : List String) (side : MergeSide)
    (oi d ni : Nat) (rest : List DiffOp) :
    (DiffOp.delete oi d ni :: rest).filterMap (classifyOp new side)
      = (⟨side, .Deleted, ⟨ni, ni⟩, ⟨oi, oi + d⟩, [], .Pending⟩ : MergeHunk)
          :: rest.filterMap (classifyOp new side) := rfl

theorem filterMap_classify_insert (new : List String) (side : MergeSide)
    (oi ni i : Nat) (rest : List DiffOp) :
    (DiffOp.insert oi ni i :: rest).filterMap (classifyOp new side)
      = (⟨side, .Added, ⟨ni, ni + i⟩, ⟨oi, oi⟩, (new.drop ni).take i, .Pending⟩ : MergeHunk)
          :: rest.filterMap (classifyOp new side) := rfl

theorem filterMap_classify_replace (new : List String) (side : MergeSide)
    (oi d ni i : Nat) (rest : List DiffOp) :
    (DiffOp.replace oi d ni i :: rest).filterMap (classifyOp new side)
      = (⟨side, .Modified, ⟨ni, ni + i⟩, ⟨oi, oi + d⟩, (new.drop ni).take i, .Pending⟩ : MergeHunk)
          :: rest.filterMap (classifyOp new side) := rfl

theorem insert_lines_id (t : List String) (hne : t ≠ []) (hlast : t.getLast? ≠ some "") :
    insert_lines_of_text t = t := by
  unfold insert_lines_of_text
  split
  · next heq => exact absurd heq hlast
  · rfl
  · next heq => exact absurd (List.getLast?_eq_none_iff.mp heq) hne

theorem script_round_trip (old new : List String) (side : MergeSide)
    (oi ni : Nat) (ops : List DiffOp) (hscript : Script old new oi ni ops) :
    (∀ h ∈ ops.filterMap (classifyOp new side), h.kind ≠ .Deleted) →
    (∀ h ∈ ops.filterMap (classifyOp new side),
      h.kind = .Added → h.base_rows.start < old.length) →
    (∀ h ∈ ops.filterMap (classifyOp new side), h.text.getLast? ≠ some "") →
    (ops.filterMap (classifyOp new side)).foldr
        (fun h acc => apply_hunk_to_base acc h) old
      = old.take oi ++ new.drop ni := by
  induction hscript with
  | nil oi ni h1 h2 =>
      intro _ _ _
      simp [h1, h2]
  | equal oi ni k rest hk hko hkn hseg hrest ih =>
      intro hdel hadd htext
      rw [filterMap_classify_equal]
      rw [ih (fun h hm => hdel h (by rw [filterMap_classify_equal]; exact hm))
            (fun h hm => hadd h (by rw [filterMap_classify_equal]; exact hm))
            (fun h hm => htext h (by rw [filterMap_classify_equal]; exact hm))]
      rw [List.take_add old oi k, hseg, List.append_assoc, ← List.drop_drop,
        List.take_append_drop]
  | delete oi ni d rest hd hdo hn hrest ih =>
      intro hdel hadd htext
      exact absurd rfl
        (hdel _ (by rw [filterMap_classify_delete]; exact List.mem_cons_self _ _))
  | insert oi ni i rest hi hio hin halt hrest ih =>
      intro hdel hadd htext
      have hmemh : (⟨side, .Added, ⟨ni, ni + i⟩, ⟨oi, oi⟩, (new.drop ni).take i,
          .Pending⟩ : MergeHunk)
            ∈ (DiffOp.insert oi ni i :: rest).filterMap (classifyOp new side) := by
        rw [filterMap_classify_insert]
        exact List.mem_cons_self _ _
      have hplt : oi < old.length := hadd _ hmemh rfl
      have htx : ((new.drop ni).take i).getLast? ≠ some "" := htext _ hmemh
      have hsuf : ni + i < new.length := by
        cases rest with
        | nil =>
            obtain ⟨h1, h2⟩ := script_nil_bound hrest
            omega
        | cons op tl =>
            cases op with
            | equal a b k =>
                obtain ⟨hk, hkn⟩ := script_equal_bound hrest
                omega
            | delete _ _ _ => exact halt.elim
            | insert _ _ _ => exact halt.elim
            | replace _ _ _ _ => exact halt.elim
      have hlentx : ((new.drop ni).take i).length = i := by
        rw [List.length_take, List.length_drop]
        omega
      have hne : (new.drop ni).take i ≠ [] := by
        intro hc
        rw [hc] at hlentx
        simp at hlentx
        omega
      rw [filterMap_classify_insert, List.foldr_cons]
      rw [ih (fun h hm => hdel h
              (by rw [filterMap_classify_insert]; exact List.mem_cons_of_mem _ hm))
            (fun h hm => hadd h
              (by rw [filterMap_classify_insert]; exact List.mem_cons_of_mem _ hm))
            (fun h hm => htext h
              (by rw [filterMap_classify_insert]; exact List.mem_cons_of_mem _ hm))]
      show (old.take oi ++ new.drop (ni + i)).take
            (min oi ((old.take oi ++ new.drop (ni + i)).length - 1))
          ++ insert_lines_of_text ((new.drop ni).take i)
          ++ (old.take oi ++ new.drop (ni + i)).drop
            (min oi ((old.take oi ++ new.drop (ni + i)).length - 1))
        = old.take oi ++ new.drop ni
      have hTlen : (old.take oi).length = oi := by
        rw [List.length_take]
        omega
      have hBlen : (old.take oi ++ new.drop (ni + i)).length
          = oi + (new.length - (ni + i)) := by
        rw [List.length_append, hTlen, List.length_drop]
      have hmin : min oi ((old.take oi ++ new.drop (ni + i)).length - 1) = oi := by
        rw [hBlen]
        omega
      rw [hmin, insert_lines_id _ hne htx, List.take_left' hTlen, List.drop_left' hTlen,
        List.append_assoc, ← List.drop_drop, List.take_append_drop]
  | replace oi ni d i rest hd hi hdo hin hrest ih =>
      intro hdel hadd htext
      have hmemh : (⟨side, .Modified, ⟨ni, ni + i⟩, ⟨oi, oi + d⟩, (new.drop ni).take i,
          .Pending⟩ : MergeHunk)
            ∈ (DiffOp.replace oi d ni i :: rest).filterMap (classifyOp new side) := by
        rw [filterMap_classify_replace]
        exact List.mem_cons_self _ _
      have htx : ((new.drop ni).take i).getLast? ≠ some "" := htext _ hmemh
      have hlentx : ((new.drop ni).take i).length = i := by
        rw [List.length_take, List.length_drop]
        omega
      have hne : (new.drop ni).take i ≠ [] := by
        intro hc
        rw [hc] at hlentx
        simp at hlentx
        omega
      rw [filterMap_classify_replace, List.foldr_cons]
      rw [ih (fun h hm => hdel h
              (by rw [filterMap_classify_replace]; exact List.mem_cons_of_mem _ hm))
            (fun h hm => hadd h
              (by rw [filterMap_classify_replace]; exact List.mem_cons_of_mem _ hm))
            (fun h hm => htext h
              (by rw [filterMap_classify_replace]; exact List.mem_cons_of_mem _ hm))]
      show (if (old.take (oi + d) ++ new.drop (ni + i)).length - 1
            < min (oi + d) ((old.take (oi + d) ++ new.drop (ni + i)).length - 1 + 1) then
          (old.take (oi + d) ++ new.drop (ni + i)).take
              (min oi ((old.take (oi + d) ++ new.drop (ni + i)).length - 1))
            ++ (new.drop ni).take i
        else
          (old.take (oi + d) ++ new.drop (ni + i)).take
              (min oi ((old.take (oi + d) ++ new.drop (ni + i)).length - 1))
            ++ insert_lines_of_text ((new.drop ni).take i)
            ++ (old.take (oi + d) ++ new.drop (ni + i)).drop
              (min (oi + d) ((old.take (oi + d) ++ new.drop (ni + i)).length - 1 + 1)))
        = old.take oi ++ new.drop ni
      have hTlen : (old.take (oi + d)).length = oi + d := by
        rw [List.length_take]
        omega
      have hBlen : (old.take (oi + d) ++ new.drop (ni + i)).length
          = oi + d + (new.length - (ni + i)) := by
        rw [List.length_append, hTlen, List.length_drop]
      have hstart : min oi ((old.take (oi + d) ++ new.drop (ni + i)).length - 1) = oi := by
        rw [hBlen]
        omega
      have hend : min (oi + d) ((old.take (oi + d) ++ new.drop (ni + i)).length - 1 + 1)
          = oi + d := by
        rw [hBlen]
        omega
      have htko : (old.take (oi + d) ++ new.drop (ni + i)).take oi = old.take oi := by
        rw [List.take_append_of_le_length (by rw [hTlen]; omega), List.take_take]
        congr 1
        omega
      rw [hstart, hend]
      by_cases hse : ni + i = new.length
      · rw [if_pos (by rw [hBlen]; omega)]
        have htkall : (new.drop ni).take i = new.drop ni :=
          List.take_of_length_le (by rw [List.length_drop]; omega)
        rw [htko, htkall]
      · rw [if_neg (by rw [hBlen]; omega)]
        rw [htko, insert_lines_id _ hne htx, List.drop_left' hTlen,
          List.append_assoc, ← List.drop_drop, List.take_append_drop]

/-- C1 (amended).  Applying every hunk of the two-way diff to a copy of the
old text reproduces the new text, provided (as forced by the counterexamples)
that the hunks are applied from last to first — in source order an earlier
hunk's row delta stales the base rows of every later hunk — and that no hunk
is Deleted-kind (`apply_hunk_to_base` is a no-op for those), every Added hunk
is anchored strictly inside the old text (the source clamps the insertion row
to the last buffer row, so a trailing insertion lands one row early), and no
hunk's text ends with an empty line (the trailing-newline splice drops it). -/
theorem round_trip_applies_diff (old new : List String) (side : MergeSide)
    (hdel : ∀ h ∈ compute_diff_hunks old new side, h.kind ≠ .Deleted)
    (hadd : ∀ h ∈ compute_diff_hunks old new side,
      h.kind = .Added → h.base_rows.start < old.length)
    (htext : ∀ h ∈ compute_diff_hunks old new side, h.text.getLast? ≠ some "") :
    apply_hunks old (compute_diff_hunks old new side).reverse = new := by
  unfold apply_hunks
  rw [List.foldl_reverse]
  have h := script_round_trip old new side 0 0 (textDiffOps old new)
    (textDiffOps_script old new) hdel hadd htext
  simpa using h

/-- C1 counterexample, two concrete failures of the claim as stated.  First,
old `a b <empty>` (text "a\nb\n") against new `a <empty>` (text "a\n") yields
one Deleted hunk, and applying it leaves the old text unchanged.  Second, old
`a b c` against new `a X b Y c` yields two Added hunks (base anchors 1 and 2,
neither Deleted, neither trailing, no empty last text line), and applying
them in source order inserts the second hunk at a stale base row, producing
`a X Y b c` instead of `a X b Y c`. -/
theorem round_trip_fails_as_stated :
    (compute_diff_hunks ["a", "b", ""] ["a", ""] .Theirs
        = [⟨.Theirs, .Deleted, ⟨1, 1⟩, ⟨1, 2⟩, [], .Pending⟩]
      ∧ apply_hunks ["a", "b", ""] (compute_diff_hunks ["a", "b", ""] ["a", ""] .Theirs)
          = ["a", "b", ""]
      ∧ ["a", "b", ""] ≠ ["a", ""])
    ∧ (compute_diff_hunks ["a", "b", "c"] ["a", "X", "b", "Y", "c"] .Theirs
        = [⟨.Theirs, .Added, ⟨1, 2⟩, ⟨1, 1⟩, ["X"], .Pending⟩,
           ⟨.Theirs, .Added, ⟨3, 4⟩, ⟨2, 2⟩, ["Y"], .Pending⟩]
      ∧ apply_hunks ["a", "b", "c"]
            (compute_diff_hunks ["a", "b", "c"] ["a", "X", "b", "Y", "c"] .Theirs)
          = ["a", "X", "Y", "b", "c"]
      ∧ (["a", "X", "Y", "b", "c"] : List String) ≠ ["a", "X", "b", "Y", "c"]) := by
  refine ⟨⟨by decide, by decide, by decide⟩, by decide, by decide, by decide⟩

/-- C1 witness: the amended round-trip theorem applied to the two-hunk diff
of `a b c` against `a X b Y c`, discharging all three hypotheses; applying
the two Added hunks from last to first reproduces the new text. -/
theorem round_trip_witness :
    apply_hunks ["a", "b", "c"]
        (compute_diff_hunks ["a", "b", "c"] ["a", "X", "b", "Y", "c"] .Theirs).reverse
      = ["a", "X", "b", "Y", "c"] :=
  round_trip_applies_diff ["a", "b", "c"] ["a", "X", "b", "Y", "c"] .Theirs
    (by decide) (by decide) (by decide)

/-! ## Claim C5: hunk classification -/

/-- Written from the claim's wording (spec section 4.2): Delete → kind
Deleted, source_rows = [new_index, new_index) (empty, anchored at new_index),
base_rows = old_range; Insert → kind Added, source_rows = new_range,
base_rows = [old_index, old_index) (empty, anchored at old_index); Replace →
kind Modified, source_rows = new_range, base_rows = old_range, text = the
lines of new_range; Equal produces nothing; every produced hunk starts with
status Pending.  The claim fixes the text only for Replace; for Insert the
source extracts the same new_range lines and for Delete it stores no text,
which is what this definition records. -/
def spec_op_to_hunk (new_text : List String) (side : MergeSide) : DiffOp → Option MergeHunk
  | .equal _ _ _ => none
  | .delete old_index old_len new_index =>
      some { side := side
             kind := .Deleted
             source_rows := ⟨new_index, new_index⟩
             base_rows := ⟨old_index, old_index + old_len⟩
             text := []
             status := .Pending }
  | .insert old_index new_index new_len =>
      some { side := side
             kind := .Added
             source_rows := ⟨new_index, new_index + new_len⟩
             base_rows := ⟨old_index, old_index⟩
             text := (new_text.drop new_index).take new_len
             status := .Pending }
  | .replace old_index old_len new_index new_len =>
      some { side := side
             kind := .Modified
             source_rows := ⟨new_index, new_index + new_len⟩
             base_rows := ⟨old_index, old_index + old_len⟩
             text := (new_text.drop new_index).take new_len
             status := .Pending }

theorem script_hunk_invariants (old new : List String) (side : MergeSide)
    (oi ni : Nat) (ops : List DiffOp) (hscript : Script old new oi ni ops) :
    ∀ h ∈ ops.filterMap (classifyOp new side),
      h.status = .Pending ∧ h.side = side
        ∧ (h.kind = .Added → h.base_rows.start = h.base_rows.stop
            ∧ h.source_rows.start < h.source_rows.stop)
        ∧ (h.kind = .Deleted → h.source_rows.start = h.source_rows.stop
            ∧ h.base_rows.start < h.base_rows.stop ∧ h.text = [])
        ∧ (h.kind = .Modified → h.base_rows.start < h.base_rows.stop
            ∧ h.source_rows.start < h.source_rows.stop)
        ∧ h.text
            = (new.drop h.source_rows.start).take (h.source_rows.stop - h.source_rows.start) := by
  induction hscript with
  | nil _ _ _ _ =>
      intro h hm
      simp at hm
  | equal oi ni k rest hk hko hkn hseg hrest ih =>
      intro h hm
      rw [filterMap_classify_equal] at hm
      exact ih h hm
  | delete oi ni d rest hd hdo hn hrest ih =>
      intro h hm
      rw [filterMap_classify_delete] at hm
      rcases List.mem_cons.mp hm with heq | hmem
      · subst heq
        refine ⟨rfl, rfl, ?_, ?_, ?_, ?_⟩
        · intro hkind; simp at hkind
        · intro _
          refine ⟨rfl, ?_, rfl⟩
          show oi < oi + d
          omega
        · intro hkind; simp at hkind
        · show ([] : List String) = (new.drop ni).take (ni - ni)
          simp
      · exact ih h hmem
  | insert oi ni i rest hi hio hin halt hrest ih =>
      intro h hm
      rw [filterMap_classify_insert] at hm
      rcases List.mem_cons.mp hm with heq | hmem
      · subst heq
        refine ⟨rfl, rfl, ?_, ?_, ?_, ?_⟩
        · intro _
          refine ⟨rfl, ?_⟩
          show ni < ni + i
          omega
        · intro hkind; simp at hkind
        · intro hkind; simp at hkind
        · show (new.drop ni).take i = (new.drop ni).take (ni + i - ni)
          congr 1
          omega
      · exact ih h hmem
  | replace oi ni d i rest hd hi hdo hin hrest ih =>
      intro h hm
      rw [filterMap_classify_replace] at hm
      rcases List.mem_cons.mp hm with heq | hmem
      · subst heq
        refine ⟨rfl, rfl, ?_, ?_, ?_, ?_⟩
        · intro hkind; simp at hkind
        · intro hkind; simp at hkind
        · intro _
          constructor
          · show oi < oi + d
            omega
          · show ni < ni + i
            omega
        · show (new.drop ni).take i = (new.drop ni).take (ni + i - ni)
          congr 1
          omega
      · exact ih h hmem

/-- C5.  The classification maps each raw operation exactly as the claim
states it: `compute_diff_hunks` equals the per-operation mapping written from
the claim's wording (`spec_op_to_hunk`: Delete → Deleted with base_rows =
old_range and the empty source_rows anchored at new_index; Insert → Added
with source_rows = new_range and the empty base_rows anchored at old_index;
Replace → Modified with both ranges and the new_range lines as text; Equal →
nothing); moreover every produced hunk starts Pending, carries the requested
side, satisfies the kind-dependent emptiness invariant (Added: empty base
range, non-empty source range; Deleted: empty source range, non-empty base
range, empty text; Modified: both ranges non-empty), and its text is the
slice of the target's lines under its source row range. -/
theorem hunk_classification_spec (old new : List String) (side : MergeSide) :
    compute_diff_hunks old new side
        = (textDiffOps old new).filterMap (spec_op_to_hunk new side)
      ∧ ∀ h ∈ compute_diff_hunks old new side,
          h.status = .Pending ∧ h.side = side
            ∧ (h.kind = .Added → h.base_rows.start = h.base_rows.stop
                ∧ h.source_rows.start < h.source_rows.stop)
            ∧ (h.kind = .Deleted → h.source_rows.start = h.source_rows.stop
                ∧ h.base_rows.start < h.base_rows.stop ∧ h.text = [])
            ∧ (h.kind = .Modified → h.base_rows.start < h.base_rows.stop
                ∧ h.source_rows.start < h.source_rows.stop)
            ∧ h.text = (new.drop h.source_rows.start).take
                (h.source_rows.stop - h.source_rows.start) := by
  constructor
  · show (textDiffOps old new).filterMap (classifyOp new side)
        = (textDiffOps old new).filterMap (spec_op_to_hunk new side)
    have harm : ∀ op : DiffOp, classifyOp new side op = spec_op_to_hunk new side op := by
      intro op
      cases op <;> rfl
    exact List.filterMap_congr (fun op _ => harm op)
  · exact script_hunk_invariants old new side 0 0 (textDiffOps old new)
      (textDiffOps_script old new)

/-- C5 witness: the classification theorem applied to the second Added hunk
of the diff of `a b c` against `a X b Y c`, whose base anchor (old index 2)
and source range ([3,4), at new index 3) differ, discharging the membership
hypothesis concretely. -/
theorem hunk_classification_witness :
    (⟨.Theirs, .Added, ⟨3, 4⟩, ⟨2, 2⟩, ["Y"], .Pending⟩ : MergeHunk).status = .Pending
      ∧ (⟨.Theirs, .Added, ⟨3, 4⟩, ⟨2, 2⟩, ["Y"], .Pending⟩ : MergeHunk).side = .Theirs :=
  ⟨((hunk_classification_spec ["a", "b", "c"] ["a", "X", "b", "Y", "c"] .Theirs).2
      ⟨.Theirs, .Added, ⟨3, 4⟩, ⟨2, 2⟩, ["Y"], .Pending⟩ (by decide)).1,
   ((hunk_classification_spec ["a", "b", "c"] ["a", "X", "b", "Y", "c"] .Theirs).2
      ⟨.Theirs, .Added, ⟨3, 4⟩, ⟨2, 2⟩, ["Y"], .Pending⟩ (by decide)).2.1⟩
